import Mathlib

/-!
Verification of the layout reconciliation and incremental growth engine of
the super-git-graph repository (a Tauri/React git history visualizer).

The definitions below are shallow embeddings of the TypeScript source:

* `Commit`, `Pos`, `GNode`, `GEdge` mirror the data shapes of
  `src/lib/graphUtils.ts` (fields that only affect styling or text rendering
  — message, author, date, refs, colors — are omitted because no verified
  property reads them).
* `computeSkip` and `fetchCommitsModel` embed `fetchCommits` of
  `GitGraphView.tsx`, with the asynchronous backend call passed in as an
  explicit `Except` value.
* `onNodeDragHandler`, `bfsRun` and `collectDescendants` embed the subtree
  drag handler of `GitGraphView.tsx`.
* `saveLayout` / `getLayout` embed `LayoutService` of `layoutService.ts`
  over an explicit key-value store state.
* `pagStep` is a small transition system for the pagination busy flag.

JavaScript numbers are modelled as integers (`ℤ`): every position
computation in the source is built from additions and subtractions only, so
the theorems and counterexamples below are exact over any subring of the
reals that the on-screen coordinates live in.
-/

/-- 2-D position, `{x: number, y: number}` in the source. -/
structure Pos where
  x : ℤ
  y : ℤ
  deriving DecidableEq, Repr

/-- A commit as consumed by the layout code.  Of the source interface
`GitCommit` only the fields read by the layout / reconciliation code are
kept: `id` and `parents`.  (`message`, `author`, `date`, `refs` and
`uncommitted_state` feed text rendering and colors only.) -/
structure Commit where
  id : String
  parents : List String
  deriving DecidableEq, Repr

/-- A rendered node: React Flow node `id`/`position` plus the commit stored
in `node.data.commit` (read back by the full-reload reconciliation). -/
structure GNode where
  id : String
  position : Pos
  commit : Commit
  deriving DecidableEq, Repr

/-- A rendered edge.  `merge` abstracts the dashed-stroke styling applied to
non-first-parent edges (`strokeDasharray`). -/
structure GEdge where
  source : String
  target : String
  merge : Bool
  deriving DecidableEq, Repr

/-- Persisted layout data: a JS object mapping commit id to position,
modelled as an association list with first-match lookup (JS object keys are
unique, so first-match agrees with object indexing). -/
abbrev LayoutData := List (String × Pos)

/-- `layout[id]` on a JS object. -/
def lookupLD (m : LayoutData) (id : String) : Option Pos :=
  (m.find? (fun p => p.1 = id)).map (·.2)

/-- `new Map(nodes.map(n => [n.id, n])).get(id)`: a JS `Map` keeps the last
binding for a key, hence the lookup scans from the right. -/
def nodeMapGet (nodes : List GNode) (id : String) : Option GNode :=
  nodes.reverse.find? (fun n => n.id = id)

/-! ## Topological layout engine

Modelled from the spec: the repository delegates the actual coordinate
assignment to the external `dagre` library (`dagre.layout`), whose code is
not part of this repository.  Following §4.1 of the spec the engine is
modelled as a deterministic function of the *unordered* node id set and
parent→child edge set: commits are ranked so that a commit's rank is
strictly greater than its loaded parents' ranks (longest-path ranking,
bounded by the node count so that malformed cyclic input truncates instead
of failing), nodes of one rank are laid out left-to-right in a fixed
deterministic order, and the spacing constants echo the `nodesep`/`ranksep`
and node width/height values that the wrapper passes to dagre. -/

/-- Lexicographic comparison of character-code lists — the deterministic
tie-break used to order the nodes of one rank. -/
def charListLt : List Char → List Char → Bool
  | [], [] => false
  | [], _ :: _ => true
  | _ :: _, [] => false
  | a :: as, b :: bs =>
    if a.toNat < b.toNat then true
    else if b.toNat < a.toNat then false
    else charListLt as bs

/-- Deterministic strict order on node ids. -/
def strLt (a b : String) : Bool :=
  charListLt a.data b.data

/-- Longest-path rank of a node, from the parent→child edge set.  `fuel`
bounds the recursion depth; callers pass the node count. -/
def rankAux (edges : Finset (String × String)) : Nat → String → Nat
  | 0, _ => 0
  | fuel + 1, v =>
      ((edges.filter (fun e => e.2 = v)).image (fun e => e.1)).sup
        (fun p => rankAux edges fuel p + 1)

/-- Modelled from the spec: `dagre.layout` — deterministic center
coordinates computed from the node id set and the edge set alone. -/
def dagreLayout (nodeIds : Finset String) (edges : Finset (String × String))
    (v : String) : Pos :=
  let r := rankAux edges nodeIds.card v
  let row := nodeIds.filter (fun u => rankAux edges nodeIds.card u = r)
  let xIdx := (row.filter (fun u => strLt u v = true)).card
  ⟨(xIdx : ℤ) * 120 + 50, (r : ℤ) * 110 + 30⟩

/-- Node id set handed to dagre by `getLayoutedElements` of
`gitGraphStore.ts` (one `g.setNode` per commit). -/
def storeNodeIds (commits : List Commit) : Finset String :=
  (commits.map (fun c => c.id)).toFinset

/-- Edge pairs handed to dagre by `getLayoutedElements` of
`gitGraphStore.ts`: `g.setEdge(parentId, commit.id)` only when the parent
is present in the commit list. -/
def storeEdgePairs (commits : List Commit) : List (String × String) :=
  commits.foldr
    (fun c acc =>
      ((c.parents.filter (fun p => commits.any (fun c2 => c2.id = p))).map
        (fun p => (p, c.id))) ++ acc)
    []

/-- One commit's output edges in `getLayoutedElements` of
`gitGraphStore.ts`: for `commit.parents.forEach((parentId, index) => ...)`,
an edge is pushed only when the parent is in the commit list, and the
dashed `merge` styling applies when `parents.length > 1 && index > 0`. -/
def edgesOfParents (all : List Commit) (cid : String) (np : Nat) :
    Nat → List String → List GEdge
  | _, [] => []
  | i, p :: rest =>
      (if all.any (fun c => c.id = p) then
        [⟨p, cid, decide (1 < np ∧ 0 < i)⟩]
      else []) ++ edgesOfParents all cid np (i + 1) rest

/-- All output edges of `getLayoutedElements` of `gitGraphStore.ts`. -/
def buildEdges (all : List Commit) : List Commit → List GEdge
  | [] => []
  | c :: rest => edgesOfParents all c.id c.parents.length 0 c.parents ++ buildEdges all rest

/-- Result record of `getLayoutedElements`. -/
structure LayoutedElements where
  nodes : List GNode
  edges : List GEdge
  deriving DecidableEq, Repr

/-- `getLayoutedElements` as defined in `gitGraphStore.ts` (the variant that
only materializes an edge when the parent commit is loaded): dagre is fed
the commit ids and the membership-filtered parent edges, and each commit
becomes a node at the dagre position shifted by half the node size
(`x - 50`, `y - 30`). -/
def getLayoutedElements (commits : List Commit) : LayoutedElements :=
  let ids := storeNodeIds commits
  let es := (storeEdgePairs commits).toFinset
  { nodes := commits.map (fun c =>
      let p := dagreLayout ids es c.id
      ⟨c.id, ⟨p.x - 50, p.y - 30⟩, c⟩)
    edges := buildEdges commits commits }

/-- Edges of one commit in `getLayoutedElements` of `lib/graphUtils.ts`
(the variant without a membership check): every entry of `parents` is
materialized, dashed when `index > 0`. -/
def edgesOfParentsLib (cid : String) : Nat → List String → List GEdge
  | _, [] => []
  | i, p :: rest => ⟨p, cid, decide (0 < i)⟩ :: edgesOfParentsLib cid (i + 1) rest

/-- All output edges of `getLayoutedElements` of `lib/graphUtils.ts`. -/
def buildEdgesLib : List Commit → List GEdge
  | [] => []
  | c :: rest => edgesOfParentsLib c.id 0 c.parents ++ buildEdgesLib rest

/-- Node ids known to dagre in the `lib/graphUtils.ts` variant:
`setEdge(parentId, commit.id)` is called without a membership check, and
dagre auto-creates a node for an unknown endpoint. -/
def libNodeIds (commits : List Commit) : Finset String :=
  (commits.map (fun c => c.id)).toFinset ∪
    (commits.foldr (fun c acc => c.parents ++ acc) []).toFinset

/-- Edge pairs handed to dagre in the `lib/graphUtils.ts` variant. -/
def libEdgePairs (commits : List Commit) : List (String × String) :=
  commits.foldr (fun c acc => (c.parents.map (fun p => (p, c.id))) ++ acc) []

/-- `getLayoutedElements` as defined in `lib/graphUtils.ts`: same node
construction (node size 60×60, so the shift is `x - 30`, `y - 30`), but
edges are pushed for every `parents` entry with no membership check. -/
def getLayoutedElementsLib (commits : List Commit) : LayoutedElements :=
  let ids := libNodeIds commits
  let es := (libEdgePairs commits).toFinset
  { nodes := commits.map (fun c =>
      let p := dagreLayout ids es c.id
      ⟨c.id, ⟨p.x - 30, p.y - 30⟩, c⟩)
    edges := buildEdgesLib commits }

/-! ## Pagination offset (`fetchCommits`, skip computation) -/

/-- The `skip` offset computed at the top of `fetchCommits`:
`loadedCommits.current.length` on a load-more, minus one when the loaded
window contains the synthetic `working-copy` commit. -/
def computeSkip (isLoadMore : Bool) (loadedCommits : List Commit) : Int :=
  let skip : Int := if isLoadMore then loadedCommits.length else 0
  if isLoadMore && loadedCommits.any (fun c => c.id = "working-copy") then
    skip - 1
  else skip

/-! ## Position reconciliation (`fetchCommits` of `GitGraphView.tsx`) -/

/-- The `dagreDelta` of the load-more branch of `fetchCommits` (lines
220–231): the anchor's live position minus its fresh dagre position, zero
when either side is missing. -/
def appendDagreDelta (currentNodes : List GNode) (anchorId : String)
    (newNodes : List GNode) : Pos :=
  match nodeMapGet currentNodes anchorId, newNodes.find? (fun n => n.id = anchorId) with
  | some a, some d => ⟨a.position.x - d.position.x, a.position.y - d.position.y⟩
  | _, _ => ⟨0, 0⟩

/-- The `cacheDelta` of the load-more branch of `fetchCommits` (lines
233–236): the anchor's live position minus its cached position, zero when
either side is missing. -/
def appendCacheDelta (currentNodes : List GNode) (cachedLayout : Option LayoutData)
    (anchorId : String) : Pos :=
  match nodeMapGet currentNodes anchorId, cachedLayout.bind (fun cl => lookupLD cl anchorId) with
  | some a, some cp => ⟨a.position.x - cp.x, a.position.y - cp.y⟩
  | _, _ => ⟨0, 0⟩

/-- The per-node position choice of the load-more branch of `fetchCommits`
(lines 238–269): live position verbatim if the node is in the current node
map; cached position plus the cache delta when the node is cached *and* the
anchor has a cached position; otherwise the fresh dagre position plus the
dagre delta. -/
def reconcileAppend (currentNodes : List GNode) (cachedLayout : Option LayoutData)
    (anchorId : String) (newNodes : List GNode) : List GNode :=
  let dagreDelta := appendDagreDelta currentNodes anchorId newNodes
  let cacheDelta := appendCacheDelta currentNodes cachedLayout anchorId
  newNodes.map (fun newNode =>
    match nodeMapGet currentNodes newNode.id with
    | some existingNode => { newNode with position := existingNode.position }
    | none =>
      match cachedLayout.bind (fun cl => lookupLD cl newNode.id),
          cachedLayout.bind (fun cl => lookupLD cl anchorId) with
      | some cp, some _ =>
          { newNode with position := ⟨cp.x + cacheDelta.x, cp.y + cacheDelta.y⟩ }
      | _, _ =>
          { newNode with position :=
              ⟨newNode.position.x + dagreDelta.x, newNode.position.y + dagreDelta.y⟩ })

/-- The parent-alignment delta of the full-reload branch (lines 297–315):
walk the node's `parents`, and for the first parent that has a resolved
position *and* a dagre position, return resolved minus dagre; otherwise
zero. -/
def findParentDelta (finalPositions : LayoutData) (allNodes : List GNode) :
    List String → Pos
  | [] => ⟨0, 0⟩
  | pid :: rest =>
    match lookupLD finalPositions pid with
    | some pFinal =>
      match allNodes.find? (fun n => n.id = pid) with
      | some pNode =>
          ⟨pFinal.x - pNode.position.x, pFinal.y - pNode.position.y⟩
      | none => findParentDelta finalPositions allNodes rest
    | none => findParentDelta finalPositions allNodes rest

/-- The full-reload resolution loop (lines 275–327): iterate over the fresh
layout nodes carrying the `finalPositions` map (seeded with the cached
layout); a node with a resolved position takes it, any other node takes its
dagre position shifted by the first resolved parent's delta and is recorded
in the map for its children. -/
def resolveFullReload (finalPositions : LayoutData) (allNodes : List GNode) :
    List GNode → List GNode
  | [] => []
  | node :: rest =>
    match lookupLD finalPositions node.id with
    | some pos => { node with position := pos } :: resolveFullReload finalPositions allNodes rest
    | none =>
      let delta := findParentDelta finalPositions allNodes node.commit.parents
      let newPos : Pos := ⟨node.position.x + delta.x, node.position.y + delta.y⟩
      { node with position := newPos } ::
        resolveFullReload ((node.id, newPos) :: finalPositions) allNodes rest

/-- The in-memory graph state touched by `fetchCommits`: the loaded commit
window (`loadedCommits.current`), the rendered nodes and edges, and the
`hasMore` / `loading` flags. -/
structure GraphState where
  loadedCommits : List Commit
  nodes : List GNode
  edges : List GEdge
  hasMore : Bool
  loading : Bool
  deriving DecidableEq, Repr

/-- Payload of a successful `get_commits` backend call. -/
structure CommitResponse where
  commits : List Commit
  has_more : Bool
  deriving DecidableEq, Repr

/-- `fetchCommits` of `GitGraphView.tsx` as a state transformer.  The
backend call and the cached-layout read are passed in explicitly; a failed
fetch (`Except.error`) reaches only the `finally` clause, because every
state mutation of the function sits after the `await invoke` call. -/
def fetchCommitsModel (st : GraphState) (isLoadMore : Bool)
    (cachedLayout : Option LayoutData) (fetchResult : Except Unit CommitResponse) :
    GraphState :=
  match fetchResult with
  | .error _ => { st with loading := false }
  | .ok response =>
    let previousOldest : Option String :=
      if isLoadMore then (st.loadedCommits.getLast?).map (fun c => c.id) else none
    let newLoaded :=
      if isLoadMore then st.loadedCommits ++ response.commits else response.commits
    let allCommits := newLoaded.reverse
    let layoutData := getLayoutedElements allCommits
    let finalNodes :=
      match previousOldest with
      | some anchorId => reconcileAppend st.nodes cachedLayout anchorId layoutData.nodes
      | none =>
        match cachedLayout with
        | some cl => resolveFullReload cl layoutData.nodes layoutData.nodes
        | none => layoutData.nodes
    { loadedCommits := newLoaded
      nodes := finalNodes
      edges := layoutData.edges
      hasMore := response.has_more
      loading := false }

/-! ## Subtree drag propagation (`onNodeDragHandler` of `GitGraphView.tsx`) -/

/-- Targets of the edges leaving `c`:
`edges.filter(e => e.source === currentId)` mapped to `e.target`. -/
def childTargets (edges : List GEdge) (c : String) : List String :=
  (edges.filter (fun e => e.source = c)).map (fun e => e.target)

/-- One `forEach` body of the BFS: add the target to the descendants set
and enqueue it unless it was already collected. -/
def pushChildren (st : Finset String × List String) (t : String) :
    Finset String × List String :=
  if t ∈ st.1 then st else (insert t st.1, st.2 ++ [t])

/-- Process one dequeued node: fold its child targets into the state. -/
def processNode (edges : List GEdge) (desc : Finset String) (queue : List String)
    (c : String) : Finset String × List String :=
  (childTargets edges c).foldl pushChildren (desc, queue)

/-- The BFS `while (queue.length > 0)` loop with an explicit dequeue budget:
`none` means the budget ran out before the queue emptied. -/
def bfsRun (edges : List GEdge) : Nat → Finset String → List String →
    Option (Finset String)
  | _, desc, [] => some desc
  | 0, _, _ :: _ => none
  | fuel + 1, desc, c :: rest =>
    let st := processNode edges desc rest c
    bfsRun edges fuel st.1 st.2

/-- The descendants set computed by the drag handler: BFS from the dragged
node with a dequeue budget of one per edge plus one (shown sufficient in
`bfs_terminates`). -/
def collectDescendants (edges : List GEdge) (start : String) : Finset String :=
  (bfsRun edges (edges.length + 1) ∅ [start]).getD ∅

/-- One directed hop along an edge. -/
def EdgeStep (edges : List GEdge) (a b : String) : Prop :=
  ∃ e ∈ edges, e.source = a ∧ e.target = b

/-- Reachability in one or more hops following edges source→target. -/
def Reach (edges : List GEdge) (a b : String) : Prop :=
  Relation.TransGen (EdgeStep edges) a b

/-- `onNodeDragHandler` of `GitGraphView.tsx`: given the drag-mode toggle,
the Ctrl state, the rendered edges/nodes, the dragged node id with its
reported position and the last recorded position, return the updated node
list and the updated last-position ref. -/
def onNodeDragHandler (isDragSubtreeMode isCtrlPressed : Bool)
    (edges : List GEdge) (nodes : List GNode) (draggedId : String)
    (nodePos : Pos) (lastNodePos : Option Pos) : List GNode × Option Pos :=
  let isSubtreeDrag := if isDragSubtreeMode then !isCtrlPressed else isCtrlPressed
  match lastNodePos with
  | none => (nodes, some nodePos)
  | some lp =>
    if !isSubtreeDrag then (nodes, some nodePos)
    else
      let dx := nodePos.x - lp.x
      let dy := nodePos.y - lp.y
      if dx = 0 ∧ dy = 0 then (nodes, some lp)
      else
        let descendants := collectDescendants edges draggedId
        let nodes' :=
          if 0 < descendants.card then
            nodes.map (fun n =>
              if n.id ∈ descendants then
                { n with position := ⟨n.position.x + dx, n.position.y + dy⟩ }
              else n)
          else nodes
        (nodes', some nodePos)

/-! ## Pagination busy flag

The Load More and Refresh buttons are rendered `disabled={loading}`, so a
click on them while `loading` is true changes nothing.  But `fetchCommits`
has a third caller that no flag gates: the view registers
`setRefreshCallback((path) => fetchCommits(path, false, true))`, and the
store's `refreshGraph()` invokes it after a checkout / pull / push /
branch operation.  Every `fetchCommits` run sets `loading` before awaiting
and its `finally` clause clears it, whichever run finishes. -/

/-- Pagination-relevant view state: the `loading` flag (which renders the
Load More button disabled), the number of pagination (`isLoadMore`)
fetches in flight, and the number of store-triggered refresh fetches in
flight. -/
structure PagState where
  loading : Bool
  pagInFlight : Nat
  refInFlight : Nat
  deriving DecidableEq, Repr

/-- Events of the pagination loop: a click on the Load More button, a
store-triggered refresh (ungated — `refreshGraph()` after checkout, pull,
push, or a branch operation), and the completion (success or failure) of
either kind of in-flight fetch, whose `finally` clause clears `loading`. -/
inductive PagEvent where
  | loadMoreClick
  | storeRefresh
  | pagComplete
  | refComplete
  deriving DecidableEq, Repr

/-- One event step.  A click while `loading` is true hits a disabled button
(`disabled={loading}`) and changes nothing; an enabled click starts
`fetchCommits(path, true)`, which sets `loading` before awaiting.  A
store-triggered refresh starts `fetchCommits(path, false, true)`
unconditionally.  A completion event of either kind runs that fetch's
`finally`, clearing `loading` regardless of the other fetches still in
flight. -/
def pagStep (s : PagState) : PagEvent → PagState
  | .loadMoreClick =>
    if s.loading then s
    else { s with loading := true, pagInFlight := s.pagInFlight + 1 }
  | .storeRefresh => { s with loading := true, refInFlight := s.refInFlight + 1 }
  | .pagComplete =>
    if s.pagInFlight = 0 then s
    else { s with loading := false, pagInFlight := s.pagInFlight - 1 }
  | .refComplete =>
    if s.refInFlight = 0 then s
    else { s with loading := false, refInFlight := s.refInFlight - 1 }

/-- Run a sequence of events from the initial state (not loading, nothing
in flight). -/
def pagRun (events : List PagEvent) : PagState :=
  events.foldl pagStep ⟨false, 0, 0⟩

/-! ## Layout persistence (`LayoutService` of `layoutService.ts`) -/

/-- Strip trailing `/` and `\` characters:
`repoPath.replace(/[\\/]+$/, '')`. -/
def stripTrailingSlashes (path : String) : String :=
  String.mk ((path.data.reverse.dropWhile (fun c => c = '/' ∨ c = '\\')).reverse)

/-- `getStoreKey`: the store key for a repository path.  The source applies
`btoa(encodeURIComponent(...))` to the normalized path; that encoding is
injective, so it is modelled as the identity on the normalized path. -/
def getStoreKey (repoPath : String) : String :=
  stripTrailingSlashes repoPath

/-- The persistent key-value store, keyed by store key. -/
abbrev KVStore := List (String × LayoutData)

/-- `store.get(key)`. -/
def storeGet (s : KVStore) (k : String) : Option LayoutData :=
  (s.find? (fun p => p.1 = k)).map (·.2)

/-- `store.set(key, v)`: replace any existing binding. -/
def storeSet (s : KVStore) (k : String) (v : LayoutData) : KVStore :=
  (k, v) :: s.filter (fun p => p.1 ≠ k)

/-- The JS object spread `{...existing, ...layout}`: entries of `layout`
win, entries of `existing` for other ids are kept. -/
def mergeLayout (existing layout : LayoutData) : LayoutData :=
  existing.filter (fun p => (lookupLD layout p.1).isNone) ++ layout

/-- `LayoutService.saveLayout`: read the existing entry for the repository
key (empty when absent), merge the new layout over it, and write it back.
(The separate `__REPO_INDEX__` bookkeeping key is not modelled; base64
store keys never collide with it.) -/
def saveLayout (s : KVStore) (repoPath : String) (layout : LayoutData) : KVStore :=
  let key := getStoreKey repoPath
  let existing := (storeGet s key).getD []
  storeSet s key (mergeLayout existing layout)

/-- `LayoutService.getLayout`: `data ?? null` for the repository key. -/
def getLayout (s : KVStore) (repoPath : String) : Option LayoutData :=
  storeGet s (getStoreKey repoPath)

/-! ## Concrete test inputs used by witnesses and counterexamples -/

/-- Loaded window: the synthetic working-copy node plus 50 real commits. -/
def wcWindow : List Commit :=
  ⟨"working-copy", []⟩ :: List.replicate 50 ⟨"c", []⟩

/-- Two commits, `"a"` a child of `"b"`. -/
def pairCommits : List Commit := [⟨"b", []⟩, ⟨"a", ["b"]⟩]

/-- Newest loaded commit in the load-more scenario: `"a"` with parent `"b"`. -/
def caC1 : Commit := ⟨"a", ["b"]⟩

/-- The older commit fetched by the load-more scenario. -/
def cbC1 : Commit := ⟨"b", []⟩

/-- Load-more scenario state: window `[a]`, node `a` live at `(10, 10)`. -/
def stC1 : GraphState := ⟨[caC1], [⟨"a", ⟨10, 10⟩, caC1⟩], [], true, false⟩

/-- Load-more scenario cache: only the incoming node `"b"` is cached; the
anchor `"a"` is not. -/
def cacheC1 : LayoutData := [("b", ⟨5, 5⟩)]

/-- Load-more scenario backend response: one older commit, no more pages. -/
def respC1 : CommitResponse := ⟨[cbC1], false⟩

/-- Full-reload scenario state: window `[a]` with node `"a"` live at
`(100, 100)` — e.g. the user dragged it there before hitting refresh. -/
def stC2 : GraphState :=
  ⟨[⟨"a", []⟩], [⟨"a", ⟨100, 100⟩, ⟨"a", []⟩⟩], [], false, false⟩

/-- Full-reload scenario cache: node `"a"` cached at `(5, 5)`. -/
def cacheC2 : LayoutData := [("a", ⟨5, 5⟩)]

/-- Full-reload scenario backend response. -/
def respC2 : CommitResponse := ⟨[⟨"a", []⟩], false⟩

/-- Drag scenario edges: the spec example graph `a → b → c`, `a → d`. -/
def dragEdges : List GEdge :=
  [⟨"a", "b", false⟩, ⟨"b", "c", false⟩, ⟨"a", "d", false⟩]

/-- Drag scenario rendered nodes (`z` has no descendants). -/
def dragNodes : List GNode :=
  [⟨"a", ⟨0, 0⟩, ⟨"a", []⟩⟩, ⟨"b", ⟨0, 100⟩, ⟨"b", []⟩⟩,
   ⟨"c", ⟨0, 200⟩, ⟨"c", []⟩⟩, ⟨"d", ⟨120, 100⟩, ⟨"d", []⟩⟩,
   ⟨"z", ⟨50, 50⟩, ⟨"z", []⟩⟩]

/-! ## Helper lemmas -/

theorem lookupLD_cons (p : String × Pos) (m : LayoutData) (id : String) :
    lookupLD (p :: m) id = if p.1 = id then some p.2 else lookupLD m id := by
  by_cases h : p.1 = id
  · simp [lookupLD, List.find?_cons_of_pos, h]
  · simp [lookupLD, List.find?_cons_of_neg, h]

theorem lookupLD_mergeLayout (ex l : LayoutData) (id : String) :
    lookupLD (mergeLayout ex l) id = (lookupLD l id).or (lookupLD ex id) := by
  induction ex with
  | nil =>
    show lookupLD ([] ++ l) id = (lookupLD l id).or (lookupLD [] id)
    rw [List.nil_append]
    cases lookupLD l id <;> rfl
  | cons hd tl ih =>
    unfold mergeLayout at ih
    show lookupLD ((hd :: tl).filter _ ++ l) id = _
    rw [List.filter_cons]
    by_cases hq : (lookupLD l hd.1).isNone = true
    · rw [if_pos hq]
      by_cases hid : hd.1 = id
      · rw [List.cons_append, lookupLD_cons, if_pos hid]
        rw [hid] at hq
        rw [Option.isNone_iff_eq_none] at hq
        rw [hq, lookupLD_cons, if_pos hid]
        rfl
      · rw [List.cons_append, lookupLD_cons, if_neg hid]
        rw [ih, lookupLD_cons, if_neg hid]
    · rw [if_neg hq, ih, lookupLD_cons]
      by_cases hid : hd.1 = id
      · rw [if_pos hid]
        rw [hid] at hq
        rw [Option.isNone_iff_eq_none] at hq
        cases h : lookupLD l id with
        | none => exact absurd h hq
        | some v => rfl
      · rw [if_neg hid]

theorem storeGet_storeSet_self (s : KVStore) (k : String) (v : LayoutData) :
    storeGet (storeSet s k v) k = some v := by
  simp [storeGet, storeSet, List.find?_cons]

theorem mem_edgesOfParents (all : List Commit) (cid : String) (np : Nat)
    (l : List String) (i : Nat) (e : GEdge)
    (h : e ∈ edgesOfParents all cid np i l) :
    e.target = cid ∧ e.source ∈ l ∧ all.any (fun c => c.id = e.source) = true := by
  induction l generalizing i with
  | nil => simp [edgesOfParents] at h
  | cons p rest ih =>
    simp only [edgesOfParents] at h
    rcases List.mem_append.mp h with h1 | h2
    · by_cases hp : all.any (fun c => c.id = p) = true
      · simp only [hp, if_pos, List.mem_singleton] at h1
        subst h1
        exact ⟨rfl, List.mem_cons_self _ _, hp⟩
      · simp [hp] at h1
    · obtain ⟨ht, hs, ha⟩ := ih (i + 1) h2
      exact ⟨ht, List.mem_cons_of_mem _ hs, ha⟩

theorem mem_buildEdges (all : List Commit) (l : List Commit) (e : GEdge)
    (h : e ∈ buildEdges all l) :
    ∃ c ∈ l, e ∈ edgesOfParents all c.id c.parents.length 0 c.parents := by
  induction l with
  | nil => simp [buildEdges] at h
  | cons c rest ih =>
    simp only [buildEdges] at h
    rcases List.mem_append.mp h with h1 | h2
    · exact ⟨c, List.mem_cons_self _ _, h1⟩
    · obtain ⟨c', hc', he⟩ := ih h2
      exact ⟨c', List.mem_cons_of_mem _ hc', he⟩

/-! ## Claim theorems -/

/-- C9: if the asynchronous commit fetch fails, `fetchCommits` leaves the
loaded-commit window, the node set, the edge set and the `hasMore` flag
exactly as they were, and clears the loading flag; the loading flag is also
cleared on every successful completion (the `finally` clause). -/
theorem fetch_failure_preserves_state :
    ∀ (st : GraphState) (isLoadMore : Bool) (cachedLayout : Option LayoutData) (e : Unit),
      (fetchCommitsModel st isLoadMore cachedLayout (.error e)).loadedCommits = st.loadedCommits ∧
      (fetchCommitsModel st isLoadMore cachedLayout (.error e)).nodes = st.nodes ∧
      (fetchCommitsModel st isLoadMore cachedLayout (.error e)).edges = st.edges ∧
      (fetchCommitsModel st isLoadMore cachedLayout (.error e)).hasMore = st.hasMore ∧
      (fetchCommitsModel st isLoadMore cachedLayout (.error e)).loading = false ∧
      (∀ r, (fetchCommitsModel st isLoadMore cachedLayout r).loading = false) := by
  intro st isLoadMore cachedLayout e
  refine ⟨rfl, rfl, rfl, rfl, rfl, ?_⟩
  intro r
  cases r <;> rfl

/-- C4: on a load-more request the skip offset equals the loaded-commit
count minus one when the synthetic working-copy node is in the window, and
exactly the loaded-commit count otherwise. -/
theorem loadMore_skip_offset :
    ∀ loaded : List Commit,
      ((∃ c ∈ loaded, c.id = "working-copy") →
        computeSkip true loaded = (loaded.length : ℤ) - 1) ∧
      ((∀ c ∈ loaded, c.id ≠ "working-copy") →
        computeSkip true loaded = (loaded.length : ℤ)) := by
  intro loaded
  constructor
  · intro hex
    have hany : loaded.any (fun c => c.id = "working-copy") = true := by
      rw [List.any_eq_true]
      obtain ⟨c, hc, hid⟩ := hex
      exact ⟨c, hc, by simp [hid]⟩
    simp [computeSkip, hany]
  · intro hall
    have hany : loaded.any (fun c => c.id = "working-copy") = false := by
      rw [List.any_eq_false]
      intro c hc
      simp [hall c hc]
    simp [computeSkip, hany]

/-- C4 witness: a window with the working-copy node plus 50 real commits
issues skip = 50 (not 51). -/
theorem loadMore_skip_offset_witness :
    (∃ c ∈ wcWindow, c.id = "working-copy") ∧
    computeSkip true wcWindow = (wcWindow.length : ℤ) - 1 ∧
    (wcWindow.length : ℤ) - 1 = 50 :=
  ⟨by decide, (loadMore_skip_offset wcWindow).1 (by decide), by decide⟩

/-- C6 fails as stated for the `getLayoutedElements` of `lib/graphUtils.ts`:
a commit whose parent is not loaded still yields an edge, whose source is
not among the input commits. -/
theorem lib_layout_dangling_edge_counterexample :
    (getLayoutedElementsLib [⟨"a", ["zz"]⟩]).edges = [⟨"zz", "a", false⟩] ∧
    (∀ c ∈ [Commit.mk "a" ["zz"]], c.id ≠ "zz") := by
  decide

/-- C6 (amended): for the `getLayoutedElements` of `gitGraphStore.ts`,
every produced edge has both endpoints among the input commits — a parent
reference outside the loaded window is silently dropped. -/
theorem store_layout_edges_endpoints_loaded :
    ∀ (commits : List Commit) (e : GEdge), e ∈ (getLayoutedElements commits).edges →
      (∃ c ∈ commits, c.id = e.source) ∧ (∃ c ∈ commits, c.id = e.target) := by
  intro commits e he
  have he' : e ∈ buildEdges commits commits := he
  obtain ⟨c, hc, hep⟩ := mem_buildEdges commits commits e he'
  obtain ⟨ht, _, ha⟩ := mem_edgesOfParents commits c.id c.parents.length c.parents 0 e hep
  constructor
  · rw [List.any_eq_true] at ha
    obtain ⟨c', hc', hid⟩ := ha
    exact ⟨c', hc', by simpa using hid⟩
  · exact ⟨c, hc, ht.symm⟩

/-- C6 witness: on the two-commit graph `b ← a` the single produced edge
`b → a` has both endpoints among the inputs. -/
theorem store_layout_edges_endpoints_loaded_witness :
    (⟨"b", "a", false⟩ : GEdge) ∈ (getLayoutedElements pairCommits).edges ∧
    ((∃ c ∈ pairCommits, c.id = "b") ∧ (∃ c ∈ pairCommits, c.id = "a")) :=
  ⟨by decide, store_layout_edges_endpoints_loaded pairCommits ⟨"b", "a", false⟩ (by decide)⟩

/-- C8 fails as stated: with a previously persisted entry for the same
repository, saving `{a ↦ (1,2)}` and loading returns a map that still
contains the old entry `c ↦ (9,9)`, so it is not the saved map. -/
theorem saveLayout_merge_counterexample :
    lookupLD ((getLayout (saveLayout [("repo", [("c", ⟨9, 9⟩)])] "repo/" [("a", ⟨1, 2⟩)])
        "repo").getD []) "c" = some ⟨9, 9⟩ ∧
    lookupLD [("a", (⟨1, 2⟩ : Pos))] "c" = none := by
  decide

/-- C8 (amended): saving a layout and loading for any path with the same
trailing-slash-stripped normalization returns the saved entries merged over
any previously persisted entries for that repository (saved values win);
when nothing was previously persisted, exactly the saved map is returned. -/
theorem saveLayout_getLayout_roundtrip :
    ∀ (s : KVStore) (p q : String) (m : LayoutData),
      getStoreKey p = getStoreKey q →
      ∃ r, getLayout (saveLayout s p m) q = some r ∧
        (∀ id, lookupLD r id =
          (lookupLD m id).or (lookupLD ((storeGet s (getStoreKey p)).getD []) id)) ∧
        (storeGet s (getStoreKey p) = none → ∀ id, lookupLD r id = lookupLD m id) := by
  intro s p q m hkey
  refine ⟨mergeLayout ((storeGet s (getStoreKey p)).getD []) m, ?_, ?_, ?_⟩
  · show storeGet (storeSet s (getStoreKey p) _) (getStoreKey q) = _
    rw [← hkey]
    exact storeGet_storeSet_self ..
  · intro id
    exact lookupLD_mergeLayout ..
  · intro hnone id
    rw [lookupLD_mergeLayout, hnone]
    show (lookupLD m id).or (lookupLD [] id) = lookupLD m id
    cases lookupLD m id <;> rfl

/-- C8 witness: round trip through an empty store, saving under `"repo/"`
and loading under `"repo"`. -/
theorem saveLayout_getLayout_roundtrip_witness :
    getStoreKey "repo/" = getStoreKey "repo" ∧
    ∃ r, getLayout (saveLayout [] "repo/" [("a", ⟨1, 2⟩)]) "repo" = some r ∧
      (∀ id, lookupLD r id =
        (lookupLD [("a", (⟨1, 2⟩ : Pos))] id).or
          (lookupLD ((storeGet [] (getStoreKey "repo/")).getD []) id)) ∧
      (storeGet ([] : KVStore) (getStoreKey "repo/") = none →
        ∀ id, lookupLD r id = lookupLD [("a", (⟨1, 2⟩ : Pos))] id) :=
  ⟨by decide, saveLayout_getLayout_roundtrip [] "repo/" "repo" [("a", ⟨1, 2⟩)] (by decide)⟩

/-- C7 fails as stated: the busy flag is shared with the ungated
store-triggered refresh path.  A Load More fetch is in flight, a checkout
triggers a refresh fetch, the refresh completes first and its `finally`
clears `loading`, the re-enabled button starts a second Load More fetch —
a reachable state with two pagination fetches in flight. -/
theorem pagination_refresh_race_counterexample :
    (pagRun [.loadMoreClick, .storeRefresh, .refComplete, .loadMoreClick]).pagInFlight = 2 ∧
    ¬(pagRun [.loadMoreClick, .storeRefresh, .refComplete, .loadMoreClick]).pagInFlight ≤ 1 := by
  decide

/-- C7 (amended): clicking Load More while `loading` is true is a no-op
(the button is disabled), and in every state reachable by Load-More clicks
and pagination completions alone at most one pagination fetch is in
flight; the guarantee does not extend to schedules with store-triggered
refreshes, whose completion clears the shared `loading` flag while a
pagination fetch is still in flight. -/
theorem pagination_single_inflight :
    (∀ s : PagState, s.loading = true → pagStep s .loadMoreClick = s) ∧
    (∀ events : List PagEvent,
      (∀ e ∈ events, e = PagEvent.loadMoreClick ∨ e = PagEvent.pagComplete) →
      (pagRun events).pagInFlight ≤ 1) := by
  constructor
  · intro s hs
    simp [pagStep, hs]
  · have inv : ∀ (events : List PagEvent) (s : PagState),
        (∀ e ∈ events, e = PagEvent.loadMoreClick ∨ e = PagEvent.pagComplete) →
        s.pagInFlight = (if s.loading then 1 else 0) →
        (events.foldl pagStep s).pagInFlight =
          (if (events.foldl pagStep s).loading then 1 else 0) := by
      intro events
      induction events with
      | nil => intro s _ hs; exact hs
      | cons e rest ih =>
        intro s hall hs
        rw [List.foldl_cons]
        have hallr : ∀ e ∈ rest, e = PagEvent.loadMoreClick ∨ e = PagEvent.pagComplete :=
          fun e he => hall e (List.mem_cons_of_mem _ he)
        apply ih _ hallr
        rcases hall e (List.mem_cons_self _ _) with he | he <;> subst he
        · by_cases hl : s.loading
          · simp [pagStep, hl, hs]
          · simp [pagStep, hl, hs]
        · by_cases hz : s.pagInFlight = 0
          · simp only [pagStep, hz, if_pos]
            rw [hz] at hs
            by_cases hl : s.loading
            · rw [if_pos hl] at hs; cases hs
            · rw [hs, if_neg hl]
              simp [hl]
          · simp only [pagStep, hz, if_neg]
            rw [hs]
            by_cases hl : s.loading
            · simp [hl]
            · rw [if_neg hl] at hs; exact absurd hs hz
    intro events hall
    have h := inv events ⟨false, 0, 0⟩ hall (by rfl)
    rw [pagRun, h]
    by_cases hl : (events.foldl pagStep ⟨false, 0, 0⟩).loading <;> simp [hl]

/-- C7 witness: a click in a loading state is the identity, and a
refresh-free schedule with a double click keeps at most one pagination
fetch in flight. -/
theorem pagination_single_inflight_witness :
    ((⟨true, 1, 0⟩ : PagState).loading = true ∧
      pagStep ⟨true, 1, 0⟩ .loadMoreClick = ⟨true, 1, 0⟩) ∧
    ((∀ e ∈ ([.loadMoreClick, .loadMoreClick, .pagComplete, .loadMoreClick] : List PagEvent),
        e = PagEvent.loadMoreClick ∨ e = PagEvent.pagComplete) ∧
      (pagRun [.loadMoreClick, .loadMoreClick, .pagComplete, .loadMoreClick]).pagInFlight ≤ 1) :=
  ⟨⟨rfl, pagination_single_inflight.1 ⟨true, 1, 0⟩ rfl⟩,
    by decide, pagination_single_inflight.2 _ (by decide)⟩

theorem forall₂_mem_right {α β : Type} {R : α → β → Prop} {l : List α} {l' : List β}
    (h : List.Forall₂ R l l') : ∀ b ∈ l', ∃ a ∈ l, R a b := by
  induction h with
  | nil => intro b hb; cases hb
  | cons hR _ ih =>
    intro b hb
    rcases List.mem_cons.mp hb with h1 | h2
    · subst h1; exact ⟨_, List.mem_cons_self _ _, hR⟩
    · obtain ⟨a, ha, hab⟩ := ih b h2
      exact ⟨a, List.mem_cons_of_mem _ ha, hab⟩

theorem reconcileAppend_spec (cur : List GNode) (cache : Option LayoutData)
    (anchorId : String) (newNodes : List GNode) :
    List.Forall₂ (fun inN outN =>
        outN.id = inN.id ∧ outN.commit = inN.commit ∧
        ((∃ ex, nodeMapGet cur inN.id = some ex ∧ outN.position = ex.position) ∨
         (nodeMapGet cur inN.id = none ∧
          (∃ cp, cache.bind (fun cl => lookupLD cl inN.id) = some cp ∧
            (cache.bind (fun cl => lookupLD cl anchorId)).isSome = true ∧
            outN.position =
              ⟨cp.x + (appendCacheDelta cur cache anchorId).x,
               cp.y + (appendCacheDelta cur cache anchorId).y⟩)) ∨
         (nodeMapGet cur inN.id = none ∧
          (cache.bind (fun cl => lookupLD cl inN.id) = none ∨
            cache.bind (fun cl => lookupLD cl anchorId) = none) ∧
          outN.position =
            ⟨inN.position.x + (appendDagreDelta cur anchorId newNodes).x,
             inN.position.y + (appendDagreDelta cur anchorId newNodes).y⟩)))
      newNodes (reconcileAppend cur cache anchorId newNodes) := by
  rw [reconcileAppend]
  rw [List.forall₂_map_right_iff]
  rw [List.forall₂_same]
  intro n hn
  cases hcur : nodeMapGet cur n.id with
  | some ex =>
    exact ⟨by simp [hcur], by simp [hcur], Or.inl ⟨ex, rfl, by simp [hcur]⟩⟩
  | none =>
    cases hc : cache.bind (fun cl => lookupLD cl n.id) with
    | some cp =>
      cases hac : cache.bind (fun cl => lookupLD cl anchorId) with
      | some acp =>
        refine ⟨by simp [hcur, hc, hac], by simp [hcur, hc, hac],
          Or.inr (Or.inl ⟨rfl, cp, rfl, by simp [hac], ?_⟩)⟩
        simp [hcur, hc, hac]
      | none =>
        refine ⟨by simp [hcur, hc, hac], by simp [hcur, hc, hac],
          Or.inr (Or.inr ⟨rfl, Or.inr rfl, ?_⟩)⟩
        simp [hcur, hc, hac]
    | none =>
      cases hac : cache.bind (fun cl => lookupLD cl anchorId) with
      | some acp =>
        refine ⟨by simp [hcur, hc, hac], by simp [hcur, hc, hac],
          Or.inr (Or.inr ⟨rfl, Or.inl rfl, ?_⟩)⟩
        simp [hcur, hc, hac]
      | none =>
        refine ⟨by simp [hcur, hc, hac], by simp [hcur, hc, hac],
          Or.inr (Or.inr ⟨rfl, Or.inl rfl, ?_⟩)⟩
        simp [hcur, hc, hac]

theorem fetchCommitsModel_loadMore_nodes (st : GraphState) (cache : Option LayoutData)
    (resp : CommitResponse) (lastC : Commit)
    (h : st.loadedCommits.getLast? = some lastC) :
    (fetchCommitsModel st true cache (.ok resp)).nodes =
      reconcileAppend st.nodes cache lastC.id
        (getLayoutedElements (st.loadedCommits ++ resp.commits).reverse).nodes := by
  simp [fetchCommitsModel, h]

theorem resolveFullReload_cached (l : List GNode) (fp : LayoutData)
    (allN : List GNode) (id : String) (p : Pos)
    (hfp : lookupLD fp id = some p) :
    ∀ outN ∈ resolveFullReload fp allN l, outN.id = id → outN.position = p := by
  induction l generalizing fp with
  | nil => intro outN h; simp [resolveFullReload] at h
  | cons node rest ih =>
    intro outN hmem hid
    rw [resolveFullReload] at hmem
    cases h : lookupLD fp node.id with
    | some pos =>
      rw [h] at hmem
      rcases List.mem_cons.mp hmem with h1 | h2
      · subst h1
        simp only at hid
        rw [hid, hfp] at h
        cases h
        rfl
      · exact ih fp hfp outN h2 hid
    | none =>
      rw [h] at hmem
      simp only at hmem
      rcases List.mem_cons.mp hmem with h1 | h2
      · subst h1
        simp only at hid
        rw [hid, hfp] at h
        cases h
      · have hne : node.id ≠ id := by
          intro he
          rw [he, hfp] at h
          cases h
        refine ih ((node.id, _) :: fp) ?_ outN h2 hid
        rw [lookupLD_cons, if_neg hne]
        exact hfp

/-- C1 fails as stated in its missing-anchor-cache clause: with the anchor
`"a"` live at `(10, 10)` but absent from the cache, the incoming node `"b"`
*is* cached at `(5, 5)`, yet the code does not fall back to its raw cached
position — it lands on the dagre branch instead. -/
theorem loadMore_missing_anchor_cache_counterexample :
    lookupLD cacheC1 "b" = some ⟨5, 5⟩ ∧
    lookupLD cacheC1 "a" = none ∧
    nodeMapGet stC1.nodes "b" = none ∧
    stC1.loadedCommits.getLast? = some caC1 ∧
    ((fetchCommitsModel stC1 true (some cacheC1) (.ok respC1)).nodes.find?
        (fun n => n.id = "b")).map (fun n => n.position) ≠ some ⟨5, 5⟩ := by
  decide

/-- C1 (amended): after an incremental append, every node that was live
keeps its live position; a non-live node gets cachedPosition + cacheDelta
exactly when both it *and the anchor* have cached positions; every other
node gets freshDefaultPosition + defaultDelta; a missing anchor live
position zeroes both deltas, and a missing anchor cached position zeroes
the cache delta and sends even cached nodes to the default branch. -/
theorem loadMore_reconcile_positions :
    ∀ (st : GraphState) (cache : Option LayoutData) (resp : CommitResponse) (lastC : Commit),
      st.loadedCommits.getLast? = some lastC →
      ∃ dagreDelta cacheDelta : Pos,
        (∀ a d, nodeMapGet st.nodes lastC.id = some a →
          (getLayoutedElements (st.loadedCommits ++ resp.commits).reverse).nodes.find?
              (fun n => n.id = lastC.id) = some d →
          dagreDelta = ⟨a.position.x - d.position.x, a.position.y - d.position.y⟩) ∧
        (nodeMapGet st.nodes lastC.id = none → dagreDelta = ⟨0, 0⟩ ∧ cacheDelta = ⟨0, 0⟩) ∧
        (∀ a acp, nodeMapGet st.nodes lastC.id = some a →
          cache.bind (fun cl => lookupLD cl lastC.id) = some acp →
          cacheDelta = ⟨a.position.x - acp.x, a.position.y - acp.y⟩) ∧
        (cache.bind (fun cl => lookupLD cl lastC.id) = none → cacheDelta = ⟨0, 0⟩) ∧
        List.Forall₂ (fun inN outN =>
            outN.id = inN.id ∧ outN.commit = inN.commit ∧
            ((∃ ex, nodeMapGet st.nodes inN.id = some ex ∧ outN.position = ex.position) ∨
             (nodeMapGet st.nodes inN.id = none ∧
              (∃ cp, cache.bind (fun cl => lookupLD cl inN.id) = some cp ∧
                (cache.bind (fun cl => lookupLD cl lastC.id)).isSome = true ∧
                outN.position = ⟨cp.x + cacheDelta.x, cp.y + cacheDelta.y⟩)) ∨
             (nodeMapGet st.nodes inN.id = none ∧
              (cache.bind (fun cl => lookupLD cl inN.id) = none ∨
                cache.bind (fun cl => lookupLD cl lastC.id) = none) ∧
              outN.position = ⟨inN.position.x + dagreDelta.x, inN.position.y + dagreDelta.y⟩)))
          (getLayoutedElements (st.loadedCommits ++ resp.commits).reverse).nodes
          (fetchCommitsModel st true cache (.ok resp)).nodes := by
  intro st cache resp lastC h
  refine ⟨appendDagreDelta st.nodes lastC.id
      (getLayoutedElements (st.loadedCommits ++ resp.commits).reverse).nodes,
    appendCacheDelta st.nodes cache lastC.id, ?_, ?_, ?_, ?_, ?_⟩
  · intro a d ha hd
    rw [appendDagreDelta, ha, hd]
  · intro ha
    constructor
    · rw [appendDagreDelta, ha]
    · rw [appendCacheDelta, ha]
  · intro a acp ha hacp
    rw [appendCacheDelta, ha, hacp]
  · intro hacp
    rw [appendCacheDelta, hacp]
    cases nodeMapGet st.nodes lastC.id <;> rfl
  · rw [fetchCommitsModel_loadMore_nodes st cache resp lastC h]
    exact reconcileAppend_spec st.nodes cache lastC.id _

/-- C1 witness: the two-commit load-more scenario instantiates the amended
reconciliation characterization. -/
theorem loadMore_reconcile_positions_witness :
    stC1.loadedCommits.getLast? = some caC1 ∧
    (∃ dagreDelta cacheDelta : Pos,
      (∀ a d, nodeMapGet stC1.nodes caC1.id = some a →
        (getLayoutedElements (stC1.loadedCommits ++ respC1.commits).reverse).nodes.find?
            (fun n => n.id = caC1.id) = some d →
        dagreDelta = ⟨a.position.x - d.position.x, a.position.y - d.position.y⟩) ∧
      (nodeMapGet stC1.nodes caC1.id = none → dagreDelta = ⟨0, 0⟩ ∧ cacheDelta = ⟨0, 0⟩) ∧
      (∀ a acp, nodeMapGet stC1.nodes caC1.id = some a →
        (some cacheC1).bind (fun cl => lookupLD cl caC1.id) = some acp →
        cacheDelta = ⟨a.position.x - acp.x, a.position.y - acp.y⟩) ∧
      ((some cacheC1).bind (fun cl => lookupLD cl caC1.id) = none → cacheDelta = ⟨0, 0⟩) ∧
      List.Forall₂ (fun inN outN =>
          outN.id = inN.id ∧ outN.commit = inN.commit ∧
          ((∃ ex, nodeMapGet stC1.nodes inN.id = some ex ∧ outN.position = ex.position) ∨
           (nodeMapGet stC1.nodes inN.id = none ∧
            (∃ cp, (some cacheC1).bind (fun cl => lookupLD cl inN.id) = some cp ∧
              ((some cacheC1).bind (fun cl => lookupLD cl caC1.id)).isSome = true ∧
              outN.position = ⟨cp.x + cacheDelta.x, cp.y + cacheDelta.y⟩)) ∨
           (nodeMapGet stC1.nodes inN.id = none ∧
            ((some cacheC1).bind (fun cl => lookupLD cl inN.id) = none ∨
              (some cacheC1).bind (fun cl => lookupLD cl caC1.id) = none) ∧
            outN.position = ⟨inN.position.x + dagreDelta.x, inN.position.y + dagreDelta.y⟩)))
        (getLayoutedElements (stC1.loadedCommits ++ respC1.commits).reverse).nodes
        (fetchCommitsModel stC1 true (some cacheC1) (.ok respC1)).nodes) :=
  ⟨by decide, loadMore_reconcile_positions stC1 (some cacheC1) respC1 caC1 (by decide)⟩

/-- C2 fails as stated: on a full reload the live position of an on-screen
node is ignored — with node `a` live at `(100, 100)` and cached at
`(5, 5)`, the reload places it at the cached `(5, 5)`. -/
theorem fullReload_ignores_live_counterexample :
    nodeMapGet stC2.nodes "a" = some ⟨"a", ⟨100, 100⟩, ⟨"a", []⟩⟩ ∧
    ((fetchCommitsModel stC2 false (some cacheC2) (.ok respC2)).nodes.find?
        (fun n => n.id = "a")).map (fun n => n.position) = some ⟨5, 5⟩ ∧
    ((⟨5, 5⟩ : Pos) ≠ ⟨100, 100⟩) := by
  decide

/-- C2 (amended): in an incremental append the priority is Live over Cached
over Default; in a full reload the live positions are ignored (the
resulting nodes do not depend on the previously rendered node set at all)
and the priority is Cached over parent-aligned Default. -/
theorem reconcile_priority_order :
    (∀ (st : GraphState) (cache : Option LayoutData) (resp : CommitResponse) (lastC : Commit),
      st.loadedCommits.getLast? = some lastC →
      ∀ outN ∈ (fetchCommitsModel st true cache (.ok resp)).nodes,
        ∀ ex, nodeMapGet st.nodes outN.id = some ex → outN.position = ex.position) ∧
    (∀ (st st' : GraphState) (cache : Option LayoutData) (resp : CommitResponse),
      (fetchCommitsModel st false cache (.ok resp)).nodes =
        (fetchCommitsModel st' false cache (.ok resp)).nodes) ∧
    (∀ (st : GraphState) (cl : LayoutData) (resp : CommitResponse) (p : Pos),
      ∀ outN ∈ (fetchCommitsModel st false (some cl) (.ok resp)).nodes,
        lookupLD cl outN.id = some p → outN.position = p) := by
  refine ⟨?_, ?_, ?_⟩
  · intro st cache resp lastC h outN hmem ex hex
    rw [fetchCommitsModel_loadMore_nodes st cache resp lastC h] at hmem
    obtain ⟨inN, _, hP⟩ :=
      forall₂_mem_right (reconcileAppend_spec st.nodes cache lastC.id _) outN hmem
    obtain ⟨hid, _, htri⟩ := hP
    rw [hid] at hex
    rcases htri with ⟨ex', hex', hpos⟩ | ⟨hnone, _⟩ | ⟨hnone, _⟩
    · rw [hex'] at hex
      injection hex with he
      rw [hpos, he]
    · rw [hnone] at hex; cases hex
    · rw [hnone] at hex; cases hex
  · intro st st' cache resp
    rfl
  · intro st cl resp p outN hmem hlook
    have hnodes : (fetchCommitsModel st false (some cl) (.ok resp)).nodes =
        resolveFullReload cl (getLayoutedElements resp.commits.reverse).nodes
          (getLayoutedElements resp.commits.reverse).nodes := rfl
    rw [hnodes] at hmem
    exact resolveFullReload_cached _ cl _ outN.id p hlook outN hmem rfl

/-- C2 witness: concrete instances of all three parts — a live node keeps
its position across an append, a full reload is independent of the rendered
nodes, and a cached node gets its cached position on a full reload. -/
theorem reconcile_priority_order_witness :
    (stC1.loadedCommits.getLast? = some caC1 ∧
      (⟨"a", ⟨10, 10⟩, caC1⟩ : GNode) ∈
        (fetchCommitsModel stC1 true (some cacheC1) (.ok respC1)).nodes ∧
      nodeMapGet stC1.nodes "a" = some ⟨"a", ⟨10, 10⟩, caC1⟩ ∧
      (⟨"a", ⟨10, 10⟩, caC1⟩ : GNode).position = (⟨"a", ⟨10, 10⟩, caC1⟩ : GNode).position) ∧
    ((fetchCommitsModel stC2 false (some cacheC2) (.ok respC2)).nodes =
      (fetchCommitsModel ⟨[], [], [], false, false⟩ false (some cacheC2) (.ok respC2)).nodes) ∧
    ((⟨"a", ⟨5, 5⟩, ⟨"a", []⟩⟩ : GNode) ∈
        (fetchCommitsModel stC2 false (some cacheC2) (.ok respC2)).nodes ∧
      lookupLD cacheC2 "a" = some ⟨5, 5⟩ ∧
      (⟨"a", ⟨5, 5⟩, ⟨"a", []⟩⟩ : GNode).position = ⟨5, 5⟩) :=
  ⟨⟨by decide, by decide, by decide,
      reconcile_priority_order.1 stC1 (some cacheC1) respC1 caC1 (by decide)
        ⟨"a", ⟨10, 10⟩, caC1⟩ (by decide) ⟨"a", ⟨10, 10⟩, caC1⟩ (by decide)⟩,
    reconcile_priority_order.2.1 stC2 ⟨[], [], [], false, false⟩ (some cacheC2) respC2,
    by decide, by decide,
    reconcile_priority_order.2.2 stC2 cacheC2 respC2 ⟨5, 5⟩
      ⟨"a", ⟨5, 5⟩, ⟨"a", []⟩⟩ (by decide) (by decide)⟩


theorem pushChildren_mem (d : Finset String) (q : List String) (t : String)
    (ht : t ∈ d) : pushChildren (d, q) t = (d, q) := by
  simp [pushChildren, ht]

theorem pushChildren_not_mem (d : Finset String) (q : List String) (t : String)
    (ht : t ∉ d) : pushChildren (d, q) t = (insert t d, q ++ [t]) := by
  simp [pushChildren, ht]

theorem pushChildren_desc_subset (l : List String) :
    ∀ (d : Finset String) (q : List String), d ⊆ (l.foldl pushChildren (d, q)).1 := by
  induction l with
  | nil => exact fun d q x hx => hx
  | cons t rest ih =>
    intro d q
    rw [List.foldl_cons]
    by_cases ht : t ∈ d
    · rw [pushChildren_mem d q t ht]; exact ih d q
    · rw [pushChildren_not_mem d q t ht]
      exact fun x hx => ih _ _ (Finset.mem_insert_of_mem hx)

theorem pushChildren_queue_prefix (l : List String) :
    ∀ (d : Finset String) (q : List String), ∃ ext, (l.foldl pushChildren (d, q)).2 = q ++ ext := by
  induction l with
  | nil => exact fun d q => ⟨[], by simp⟩
  | cons t rest ih =>
    intro d q
    rw [List.foldl_cons]
    by_cases ht : t ∈ d
    · rw [pushChildren_mem d q t ht]; exact ih d q
    · rw [pushChildren_not_mem d q t ht]
      obtain ⟨ext, hext⟩ := ih (insert t d) (q ++ [t])
      exact ⟨[t] ++ ext, by rw [hext, List.append_assoc]⟩

theorem pushChildren_desc_mem (l : List String) :
    ∀ (d : Finset String) (q : List String),
      ∀ x ∈ (l.foldl pushChildren (d, q)).1, x ∈ d ∨ x ∈ l := by
  induction l with
  | nil => intro d q x hx; exact Or.inl hx
  | cons t rest ih =>
    intro d q x hx
    rw [List.foldl_cons] at hx
    by_cases ht : t ∈ d
    · rw [pushChildren_mem d q t ht] at hx
      rcases ih d q x hx with h | h
      · exact Or.inl h
      · exact Or.inr (List.mem_cons_of_mem _ h)
    · rw [pushChildren_not_mem d q t ht] at hx
      rcases ih (insert t d) (q ++ [t]) x hx with h | h
      · rcases Finset.mem_insert.mp h with h1 | h2
        · exact Or.inr (h1 ▸ List.mem_cons_self _ _)
        · exact Or.inl h2
      · exact Or.inr (List.mem_cons_of_mem _ h)

theorem pushChildren_covers (l : List String) :
    ∀ (d : Finset String) (q : List String),
      ∀ t ∈ l, t ∈ (l.foldl pushChildren (d, q)).1 := by
  induction l with
  | nil => intro d q t ht; cases ht
  | cons t0 rest ih =>
    intro d q t ht
    rw [List.foldl_cons]
    rcases List.mem_cons.mp ht with h1 | h2
    · subst h1
      by_cases ht0 : t ∈ d
      · rw [pushChildren_mem d q t ht0]
        exact pushChildren_desc_subset rest d q ht0
      · rw [pushChildren_not_mem d q t ht0]
        exact pushChildren_desc_subset rest _ _ (Finset.mem_insert_self t d)
    · by_cases ht0 : t0 ∈ d
      · rw [pushChildren_mem d q t0 ht0]; exact ih d q t h2
      · rw [pushChildren_not_mem d q t0 ht0]; exact ih _ _ t h2

theorem pushChildren_new_in_queue (l : List String) :
    ∀ (d : Finset String) (q : List String),
      ∀ x ∈ (l.foldl pushChildren (d, q)).1, x ∈ d ∨ x ∈ (l.foldl pushChildren (d, q)).2 := by
  induction l with
  | nil => intro d q x hx; exact Or.inl hx
  | cons t rest ih =>
    intro d q x hx
    rw [List.foldl_cons] at hx ⊢
    by_cases ht : t ∈ d
    · rw [pushChildren_mem d q t ht] at hx ⊢
      exact ih d q x hx
    · rw [pushChildren_not_mem d q t ht] at hx ⊢
      rcases ih (insert t d) (q ++ [t]) x hx with h | h
      · rcases Finset.mem_insert.mp h with h1 | h2
        · subst h1
          obtain ⟨ext, hext⟩ := pushChildren_queue_prefix rest (insert x d) (q ++ [x])
          refine Or.inr ?_
          rw [hext]
          exact List.mem_append.mpr (Or.inl (List.mem_append.mpr (Or.inr (List.mem_singleton.mpr rfl))))
        · exact Or.inl h2
      · exact Or.inr h

theorem pushChildren_queue_mem (l : List String) :
    ∀ (d : Finset String) (q : List String),
      ∀ x ∈ (l.foldl pushChildren (d, q)).2, x ∈ q ∨ x ∈ (l.foldl pushChildren (d, q)).1 := by
  induction l with
  | nil => intro d q x hx; exact Or.inl hx
  | cons t rest ih =>
    intro d q x hx
    rw [List.foldl_cons] at hx ⊢
    by_cases ht : t ∈ d
    · rw [pushChildren_mem d q t ht] at hx ⊢
      exact ih d q x hx
    · rw [pushChildren_not_mem d q t ht] at hx ⊢
      rcases ih (insert t d) (q ++ [t]) x hx with h | h
      · rcases List.mem_append.mp h with h1 | h2
        · exact Or.inl h1
        · rw [List.mem_singleton] at h2
          subst h2
          exact Or.inr (pushChildren_desc_subset rest _ _ (Finset.mem_insert_self x d))
      · exact Or.inr h

theorem pushChildren_measure (T : Finset String) (l : List String)
    (hl : ∀ t ∈ l, t ∈ T) :
    ∀ (d : Finset String) (q : List String),
      (l.foldl pushChildren (d, q)).2.length + (T \ (l.foldl pushChildren (d, q)).1).card =
        q.length + (T \ d).card := by
  induction l with
  | nil => intro d q; rfl
  | cons t rest ih =>
    intro d q
    have hlt : ∀ t' ∈ rest, t' ∈ T := fun t' ht' => hl t' (List.mem_cons_of_mem _ ht')
    rw [List.foldl_cons]
    by_cases ht : t ∈ d
    · rw [pushChildren_mem d q t ht]
      exact ih hlt d q
    · rw [pushChildren_not_mem d q t ht]
      rw [ih hlt (insert t d) (q ++ [t])]
      have htT : t ∈ T \ d := Finset.mem_sdiff.mpr ⟨hl t (List.mem_cons_self _ _), ht⟩
      have hsd : T \ insert t d = (T \ d).erase t := by
        ext x
        simp only [Finset.mem_sdiff, Finset.mem_erase, Finset.mem_insert]
        constructor
        · rintro ⟨hxT, hx⟩
          exact ⟨fun he => hx (Or.inl he), hxT, fun hxd => hx (Or.inr hxd)⟩
        · rintro ⟨hne, hxT, hxd⟩
          exact ⟨hxT, fun h => h.elim hne hxd⟩
      rw [hsd, Finset.card_erase_of_mem htT, List.length_append]
      have hpos : 0 < (T \ d).card := Finset.card_pos.mpr ⟨t, htT⟩
      simp only [List.length_singleton]
      omega

theorem bfsRun_total (edges : List GEdge) (T : Finset String)
    (hT : ∀ c t, t ∈ childTargets edges c → t ∈ T) :
    ∀ (fuel : Nat) (d : Finset String) (q : List String),
      q.length + (T \ d).card ≤ fuel → (bfsRun edges fuel d q).isSome = true := by
  intro fuel
  induction fuel with
  | zero =>
    intro d q hq
    have : q.length = 0 := by omega
    rw [List.length_eq_zero] at this
    subst this
    rfl
  | succ fuel ih =>
    intro d q hq
    cases q with
    | nil => rfl
    | cons c rest =>
      rw [bfsRun]
      apply ih
      have := pushChildren_measure T (childTargets edges c) (fun t ht => hT c t ht) d rest
      rw [show processNode edges d rest c = (childTargets edges c).foldl pushChildren (d, rest) from rfl]
      rw [this]
      simp only [List.length_cons] at hq
      omega

/-- C10: the drag handler's breadth-first descendant collection terminates
for every finite edge list — cyclic ones included — within one dequeue per
edge plus one: a node id is enqueued only the first time it enters the
descendants set. -/
theorem bfs_terminates :
    ∀ (edges : List GEdge) (start : String),
      (bfsRun edges (edges.length + 1) ∅ [start]).isSome = true := by
  intro edges start
  apply bfsRun_total edges ((edges.map (fun e => e.target)).toFinset)
  · intro c t ht
    rw [List.mem_toFinset]
    unfold childTargets at ht
    obtain ⟨e, he, het⟩ := List.mem_map.mp ht
    exact List.mem_map.mpr ⟨e, (List.mem_filter.mp he).1, het⟩
  · have hcard : ((edges.map (fun e => e.target)).toFinset).card ≤ edges.length := by
      calc ((edges.map (fun e => e.target)).toFinset).card
          ≤ (edges.map (fun e => e.target)).length := List.toFinset_card_le _
        _ = edges.length := List.length_map _ _
    simp only [List.length_singleton, Finset.sdiff_empty]
    omega

theorem mem_childTargets (edges : List GEdge) (c t : String) :
    t ∈ childTargets edges c ↔ EdgeStep edges c t := by
  unfold childTargets EdgeStep
  constructor
  · intro ht
    obtain ⟨e, he, het⟩ := List.mem_map.mp ht
    obtain ⟨hee, hes⟩ := List.mem_filter.mp he
    exact ⟨e, hee, by simpa using hes, het⟩
  · rintro ⟨e, he, hes, het⟩
    exact List.mem_map.mpr ⟨e, List.mem_filter.mpr ⟨he, by simpa using hes⟩, het⟩

theorem bfsRun_sound (edges : List GEdge) (start : String) :
    ∀ (fuel : Nat) (d : Finset String) (q : List String) (out : Finset String),
      (∀ x ∈ d, Reach edges start x) →
      (∀ x ∈ q, x = start ∨ Reach edges start x) →
      bfsRun edges fuel d q = some out →
      ∀ x ∈ out, Reach edges start x := by
  intro fuel
  induction fuel with
  | zero =>
    intro d q out hd hq hrun
    cases q with
    | nil => cases hrun; exact hd
    | cons c rest => cases hrun
  | succ fuel ih =>
    intro d q out hd hq hrun
    cases q with
    | nil => cases hrun; exact hd
    | cons c rest =>
      rw [bfsRun] at hrun
      have hdesc : ∀ x ∈ (processNode edges d rest c).1, Reach edges start x := by
        intro x hx
        rcases pushChildren_desc_mem (childTargets edges c) d rest x hx with h | h
        · exact hd x h
        · have hstep : EdgeStep edges c x := (mem_childTargets edges c x).mp h
          rcases hq c (List.mem_cons_self _ _) with hc | hc
          · subst hc
            exact Relation.TransGen.single hstep
          · exact Relation.TransGen.tail hc hstep
      refine ih (processNode edges d rest c).1 (processNode edges d rest c).2 out hdesc ?_ hrun
      intro x hx
      rcases pushChildren_queue_mem (childTargets edges c) d rest x hx with h | h
      · exact hq x (List.mem_cons_of_mem _ h)
      · exact Or.inr (hdesc x h)

theorem bfsRun_closed (edges : List GEdge) (start : String) :
    ∀ (fuel : Nat) (d : Finset String) (q : List String) (out : Finset String),
      (∀ u, (u = start ∨ u ∈ d) → u ∈ q ∨ (∀ t ∈ childTargets edges u, t ∈ d)) →
      bfsRun edges fuel d q = some out →
      ∀ u, (u = start ∨ u ∈ out) → ∀ t ∈ childTargets edges u, t ∈ out := by
  intro fuel
  induction fuel with
  | zero =>
    intro d q out hinv hrun
    cases q with
    | nil =>
      cases hrun
      intro u hu t ht
      rcases hinv u hu with h | h
      · cases h
      · exact h t ht
    | cons c rest => cases hrun
  | succ fuel ih =>
    intro d q out hinv hrun
    cases q with
    | nil =>
      cases hrun
      intro u hu t ht
      rcases hinv u hu with h | h
      · cases h
      · exact h t ht
    | cons c rest =>
      rw [bfsRun] at hrun
      have hsub : d ⊆ (processNode edges d rest c).1 :=
        pushChildren_desc_subset (childTargets edges c) d rest
      have hcase : ∀ u, (u = start ∨ u ∈ d) →
          u ∈ (processNode edges d rest c).2 ∨
            (∀ t ∈ childTargets edges u, t ∈ (processNode edges d rest c).1) := by
        intro u hu
        rcases hinv u hu with hq | hcl
        · rcases List.mem_cons.mp hq with h1 | h2
          · subst h1
            exact Or.inr (fun t ht => pushChildren_covers (childTargets edges u) d rest t ht)
          · obtain ⟨ext, hext⟩ :=
              pushChildren_queue_prefix (childTargets edges c) d rest
            refine Or.inl ?_
            rw [show processNode edges d rest c =
              (childTargets edges c).foldl pushChildren (d, rest) from rfl, hext]
            exact List.mem_append.mpr (Or.inl h2)
        · exact Or.inr (fun t ht => hsub (hcl t ht))
      refine ih (processNode edges d rest c).1 (processNode edges d rest c).2 out ?_ hrun
      intro u hu
      rcases hu with hstart | hmem
      · exact hcase u (Or.inl hstart)
      · rcases pushChildren_new_in_queue (childTargets edges c) d rest u hmem with hold | hq'
        · exact hcase u (Or.inr hold)
        · exact Or.inl hq'

theorem mem_collectDescendants (edges : List GEdge) (start x : String) :
    x ∈ collectDescendants edges start ↔ Reach edges start x := by
  obtain ⟨out, hout⟩ := Option.isSome_iff_exists.mp (bfs_terminates edges start)
  have hcd : collectDescendants edges start = out := by
    rw [collectDescendants, hout]
    rfl
  rw [hcd]
  constructor
  · intro hx
    exact bfsRun_sound edges start _ ∅ [start] out
      (fun y hy => absurd hy (Finset.not_mem_empty y))
      (fun y hy => Or.inl (List.mem_singleton.mp hy)) hout x hx
  · intro hr
    have hclosed := bfsRun_closed edges start _ ∅ [start] out
      (fun u hu => by
        rcases hu with h | h
        · exact Or.inl (by rw [h]; exact List.mem_singleton.mpr rfl)
        · exact absurd h (Finset.not_mem_empty u)) hout
    induction hr with
    | single h =>
      exact hclosed start (Or.inl rfl) _ ((mem_childTargets edges start _).mpr h)
    | tail hab hbc ih =>
      exact hclosed _ (Or.inr ih) _ ((mem_childTargets edges _ _).mpr hbc)

/-- C3: when the effective mode is subtree drag (mode XOR Ctrl) and the
tick displacement is nonzero, exactly the nodes reachable from the dragged
node along source→target edges are translated by `(dx, dy)` and every other
node is unchanged; and a node with no reachable descendants moves alone
regardless of mode. -/
theorem subtree_drag_moves_descendants :
    ∀ (mode ctrl : Bool) (edges : List GEdge) (nodes : List GNode) (draggedId : String)
      (nodePos lp : Pos),
      (Bool.xor mode ctrl = true →
        ¬(nodePos.x - lp.x = 0 ∧ nodePos.y - lp.y = 0) →
        List.Forall₂ (fun inN outN =>
            (Reach edges draggedId inN.id ∧
              outN = { inN with position :=
                ⟨inN.position.x + (nodePos.x - lp.x), inN.position.y + (nodePos.y - lp.y)⟩ }) ∨
            (¬Reach edges draggedId inN.id ∧ outN = inN))
          nodes (onNodeDragHandler mode ctrl edges nodes draggedId nodePos (some lp)).1) ∧
      ((∀ y, ¬Reach edges draggedId y) →
        ∀ (mode' ctrl' : Bool) (lp' : Option Pos),
          (onNodeDragHandler mode' ctrl' edges nodes draggedId nodePos lp').1 = nodes) := by
  intro mode ctrl edges nodes draggedId nodePos lp
  constructor
  · intro hx hnz
    have hsub : (if mode then !ctrl else ctrl) = true := by
      cases mode <;> cases ctrl <;> simp at hx ⊢
    rw [onNodeDragHandler, hsub]
    simp only [Bool.not_true, Bool.false_eq_true, if_false]
    rw [if_neg hnz]
    by_cases hcard : 0 < (collectDescendants edges draggedId).card
    · rw [if_pos hcard]
      rw [List.forall₂_map_right_iff, List.forall₂_same]
      intro n hn
      by_cases hmem : n.id ∈ collectDescendants edges draggedId
      · exact Or.inl ⟨(mem_collectDescendants edges draggedId n.id).mp hmem, by simp [hmem]⟩
      · refine Or.inr ⟨fun hr => hmem ((mem_collectDescendants edges draggedId n.id).mpr hr), ?_⟩
        simp [hmem]
    · rw [if_neg hcard]
      rw [List.forall₂_same]
      intro n hn
      have hempty : collectDescendants edges draggedId = ∅ := by
        rw [← Finset.card_eq_zero]
        omega
      refine Or.inr ⟨fun hr => ?_, rfl⟩
      have := (mem_collectDescendants edges draggedId n.id).mpr hr
      rw [hempty] at this
      exact Finset.not_mem_empty _ this
  · intro hno mode' ctrl' lp'
    have hempty : collectDescendants edges draggedId = ∅ := by
      apply Finset.eq_empty_iff_forall_not_mem.mpr
      intro y hy
      exact hno y ((mem_collectDescendants edges draggedId y).mp hy)
    cases lp' with
    | none => rfl
    | some lpv =>
      rw [onNodeDragHandler]
      by_cases hsub : (if mode' then !ctrl' else ctrl') = true
      · rw [hsub]
        simp only [Bool.not_true, Bool.false_eq_true, if_false]
        by_cases hz : nodePos.x - lpv.x = 0 ∧ nodePos.y - lpv.y = 0
        · rw [if_pos hz]
        · rw [if_neg hz, hempty]
          simp
      · have hsub' : (if mode' then !ctrl' else ctrl') = false := by
          cases h : (if mode' then !ctrl' else ctrl')
          · rfl
          · exact absurd h hsub
        rw [hsub']
        rfl

theorem perm_any_eq {l1 l2 : List Commit} (h : l1.Perm l2) (p : Commit → Bool) :
    l1.any p = l2.any p := by
  cases h1 : l1.any p with
  | true =>
    rw [List.any_eq_true] at h1
    obtain ⟨c, hc, hpc⟩ := h1
    exact (List.any_eq_true.mpr ⟨c, h.mem_iff.mp hc, hpc⟩).symm
  | false =>
    rw [List.any_eq_false] at h1
    cases h2 : l2.any p with
    | true =>
      rw [List.any_eq_true] at h2
      obtain ⟨c, hc, hpc⟩ := h2
      exact absurd hpc (h1 c (h.mem_iff.mpr hc))
    | false => rfl

theorem mem_foldr_append {α β : Type} (f : α → List β) :
    ∀ (l : List α) (x : β),
      x ∈ l.foldr (fun c acc => f c ++ acc) [] ↔ ∃ c ∈ l, x ∈ f c := by
  intro l
  induction l with
  | nil => intro x; simp
  | cons c rest ih =>
    intro x
    rw [List.foldr_cons, List.mem_append]
    constructor
    · rintro (h | h)
      · exact ⟨c, List.mem_cons_self _ _, h⟩
      · obtain ⟨c', hc', hx⟩ := (ih x).mp h
        exact ⟨c', List.mem_cons_of_mem _ hc', hx⟩
    · rintro ⟨c', hc', hx⟩
      rcases List.mem_cons.mp hc' with h1 | h2
      · exact Or.inl (h1 ▸ hx)
      · exact Or.inr ((ih x).mpr ⟨c', h2, hx⟩)

theorem storeEdgePairs_congr_any {all1 all2 : List Commit}
    (hany : ∀ p, all1.any (fun c2 => c2.id = p) = all2.any (fun c2 => c2.id = p))
    (l : List Commit) :
    l.foldr (fun c acc =>
        ((c.parents.filter (fun p => all1.any (fun c2 => c2.id = p))).map
          (fun p => (p, c.id))) ++ acc) [] =
      l.foldr (fun c acc =>
        ((c.parents.filter (fun p => all2.any (fun c2 => c2.id = p))).map
          (fun p => (p, c.id))) ++ acc) [] := by
  have hf : (fun p => all1.any (fun c2 => c2.id = p)) =
      (fun p => all2.any (fun c2 => c2.id = p)) := funext hany
  rw [hf]

theorem perm_storeNodeIds {l1 l2 : List Commit} (h : l1.Perm l2) :
    storeNodeIds l1 = storeNodeIds l2 :=
  List.toFinset_eq_of_perm _ _ (h.map (fun c => c.id))

theorem perm_storeEdgePairs {l1 l2 : List Commit} (h : l1.Perm l2) :
    (storeEdgePairs l1).toFinset = (storeEdgePairs l2).toFinset := by
  have hany : ∀ p, l1.any (fun c2 => c2.id = p) = l2.any (fun c2 => c2.id = p) :=
    fun p => perm_any_eq h _
  ext pr
  rw [List.mem_toFinset, List.mem_toFinset]
  unfold storeEdgePairs
  rw [storeEdgePairs_congr_any hany l1]
  rw [mem_foldr_append, mem_foldr_append]
  constructor
  · rintro ⟨c, hc, hx⟩
    exact ⟨c, h.mem_iff.mp hc, hx⟩
  · rintro ⟨c, hc, hx⟩
    exact ⟨c, h.mem_iff.mpr hc, hx⟩

theorem find?_map_nodes (posF : String → Pos) (id : String) :
    ∀ l : List Commit,
      ((l.map (fun c => (⟨c.id, posF c.id, c⟩ : GNode))).find?
          (fun n => n.id = id)).map (fun n => n.position) =
        if l.any (fun c => c.id = id) = true then some (posF id) else none := by
  intro l
  induction l with
  | nil => rfl
  | cons c rest ih =>
    rw [List.map_cons]
    by_cases hc : c.id = id
    · rw [List.find?_cons_of_pos _ (by simpa using hc)]
      have hany : (c :: rest).any (fun c => c.id = id) = true :=
        List.any_eq_true.mpr ⟨c, List.mem_cons_self _ _, by simpa using hc⟩
      rw [if_pos hany]
      simp [hc]
    · rw [List.find?_cons_of_neg _ (by simpa using hc)]
      rw [ih]
      have hany : (c :: rest).any (fun c => c.id = id) = rest.any (fun c => c.id = id) := by
        rw [List.any_cons]
        simp [hc]
      rw [hany]

theorem mem_buildEdges_iff (all : List Commit) :
    ∀ (l : List Commit) (e : GEdge),
      e ∈ buildEdges all l ↔
        ∃ c ∈ l, e ∈ edgesOfParents all c.id c.parents.length 0 c.parents := by
  intro l
  induction l with
  | nil => intro e; simp [buildEdges]
  | cons c rest ih =>
    intro e
    rw [buildEdges, List.mem_append]
    constructor
    · rintro (h | h)
      · exact ⟨c, List.mem_cons_self _ _, h⟩
      · obtain ⟨c', hc', he⟩ := (ih e).mp h
        exact ⟨c', List.mem_cons_of_mem _ hc', he⟩
    · rintro ⟨c', hc', he⟩
      rcases List.mem_cons.mp hc' with h1 | h2
      · exact Or.inl (h1 ▸ he)
      · exact Or.inr ((ih e).mpr ⟨c', h2, he⟩)

theorem edgesOfParents_congr_any {all1 all2 : List Commit}
    (hany : ∀ p, all1.any (fun c2 => c2.id = p) = all2.any (fun c2 => c2.id = p))
    (cid : String) (np : Nat) :
    ∀ (l : List String) (i : Nat),
      edgesOfParents all1 cid np i l = edgesOfParents all2 cid np i l := by
  intro l
  induction l with
  | nil => intro i; rfl
  | cons p rest ih =>
    intro i
    rw [edgesOfParents, edgesOfParents, hany p, ih (i + 1)]

theorem layout_nodes_find? (commits : List Commit) (id : String) :
    ((getLayoutedElements commits).nodes.find? (fun n => n.id = id)).map
        (fun n => n.position) =
      if commits.any (fun c => c.id = id) = true then
        some ⟨(dagreLayout (storeNodeIds commits) (storeEdgePairs commits).toFinset id).x - 50,
              (dagreLayout (storeNodeIds commits) (storeEdgePairs commits).toFinset id).y - 30⟩
      else none :=
  find?_map_nodes
    (fun v => (⟨(dagreLayout (storeNodeIds commits) (storeEdgePairs commits).toFinset v).x - 50,
      (dagreLayout (storeNodeIds commits) (storeEdgePairs commits).toFinset v).y - 30⟩ : Pos))
    id commits

/-- C5: `getLayoutedElements` is order-invariant — for any permutation of
the commit list, every commit id is assigned the same position and the edge
set is identical. -/
theorem layout_order_invariant :
    ∀ (l1 l2 : List Commit), l1.Perm l2 →
      (∀ id, ((getLayoutedElements l1).nodes.find? (fun n => n.id = id)).map
          (fun n => n.position) =
        ((getLayoutedElements l2).nodes.find? (fun n => n.id = id)).map
          (fun n => n.position)) ∧
      (getLayoutedElements l1).edges.toFinset = (getLayoutedElements l2).edges.toFinset := by
  intro l1 l2 h
  have hids := perm_storeNodeIds h
  have hedges := perm_storeEdgePairs h
  have hany : ∀ p, l1.any (fun c2 => c2.id = p) = l2.any (fun c2 => c2.id = p) :=
    fun p => perm_any_eq h _
  constructor
  · intro id
    rw [layout_nodes_find?, layout_nodes_find?, hany id, hids, hedges]
  · ext e
    rw [List.mem_toFinset, List.mem_toFinset]
    have he1 : (getLayoutedElements l1).edges = buildEdges l1 l1 := rfl
    have he2 : (getLayoutedElements l2).edges = buildEdges l2 l2 := rfl
    rw [he1, he2, mem_buildEdges_iff, mem_buildEdges_iff]
    constructor
    · rintro ⟨c, hc, hce⟩
      refine ⟨c, h.mem_iff.mp hc, ?_⟩
      rw [← edgesOfParents_congr_any hany c.id c.parents.length c.parents 0]
      exact hce
    · rintro ⟨c, hc, hce⟩
      refine ⟨c, h.mem_iff.mpr hc, ?_⟩
      rw [edgesOfParents_congr_any hany c.id c.parents.length c.parents 0]
      exact hce

/-- C5 witness: the layout of the two-commit graph agrees with the layout
of its reversal, position-wise and edge-set-wise. -/
theorem layout_order_invariant_witness :
    ([⟨"b", []⟩, ⟨"a", ["b"]⟩] : List Commit).Perm [⟨"a", ["b"]⟩, ⟨"b", []⟩] ∧
    ((∀ id, ((getLayoutedElements [⟨"b", []⟩, ⟨"a", ["b"]⟩]).nodes.find?
          (fun n => n.id = id)).map (fun n => n.position) =
        ((getLayoutedElements [⟨"a", ["b"]⟩, ⟨"b", []⟩]).nodes.find?
          (fun n => n.id = id)).map (fun n => n.position)) ∧
      (getLayoutedElements [⟨"b", []⟩, ⟨"a", ["b"]⟩]).edges.toFinset =
        (getLayoutedElements [⟨"a", ["b"]⟩, ⟨"b", []⟩]).edges.toFinset) :=
  ⟨List.Perm.swap _ _ _,
    layout_order_invariant [⟨"b", []⟩, ⟨"a", ["b"]⟩] [⟨"a", ["b"]⟩, ⟨"b", []⟩]
      (List.Perm.swap _ _ _)⟩

theorem subtree_drag_moves_descendants_witness :
    List.Forall₂ (fun inN outN =>
        (Reach dragEdges "a" inN.id ∧
          outN = { inN with position :=
            ⟨inN.position.x + ((10 : ℤ) - 0), inN.position.y + ((10 : ℤ) - 0)⟩ }) ∨
        (¬Reach dragEdges "a" inN.id ∧ outN = inN))
      dragNodes
      (onNodeDragHandler true false dragEdges dragNodes "a" ⟨10, 10⟩ (some ⟨0, 0⟩)).1 ∧
    (∀ (mode' ctrl' : Bool) (lp' : Option Pos),
      (onNodeDragHandler mode' ctrl' dragEdges dragNodes "z" ⟨10, 10⟩ lp').1 = dragNodes) :=
  ⟨(subtree_drag_moves_descendants true false dragEdges dragNodes "a" ⟨10, 10⟩ ⟨0, 0⟩).1
      (by decide) (by decide),
    (subtree_drag_moves_descendants true false dragEdges dragNodes "z" ⟨10, 10⟩ ⟨0, 0⟩).2
      (fun y hy => by
        have hm := (mem_collectDescendants dragEdges "z" y).mpr hy
        rw [show collectDescendants dragEdges "z" = ∅ from by decide] at hm
        exact Finset.not_mem_empty y hm)⟩
